import Mathlib

/-!
Verification development for the CGNTG fuzz-driver generator
(sources: `src/feedback/schedule.rs`, `src/fuzzer.rs`, `src/program/cntg.rs`,
`src/cntg_program/seed_metas.rs`).

Conventions of the shallow embedding:
* Rust `u32` counters are embedded as `Nat` together with the explicit
  wrap-around `% 2^32` at every arithmetic step that the source performs
  on `u32` values (release-profile wrapping semantics).
* `f32` values are embedded as exact rationals `ℚ`; the one piece of
  IEEE-754 behaviour a claim depends on — NaN propagation through
  `-` and `/` — is embedded separately as `Option ℚ`, `none` standing
  for NaN.
* `HashMap<String, Seed>` state is embedded as an association list
  `List (String × ℚ)` carrying each seed's `energy` field; `get_mut`
  updates the entry with the matching key, `get` is `List.lookup`.
* Fallible Rust code (`Result`, `panic!`, `todo!`) is embedded with
  `Option`/explicit outcome types: `none` marks the aborting path.
-/

namespace CGNTG

/-! ## Scheduler: `Seed::compute_energy` (schedule.rs:52-60) -/

/-- `u32` wrap-around. -/
def wrap32 (n : ℕ) : ℕ := n % 2 ^ 32

/-- The integer denominator computed in `Seed::compute_energy`
(schedule.rs:54-56): `count = 1 + exec_count`, `round = 1 + prompt_count`,
`(count * round).pow(exponent)`, every step in wrapping `u32` arithmetic. -/
def energyDenom (exec_count prompt_count exponent : ℕ) : ℕ :=
  wrap32 ((wrap32 (wrap32 (1 + exec_count) * wrap32 (1 + prompt_count))) ^ exponent)

/-- `Seed::compute_energy` (schedule.rs:52-60) on exact rationals:
`top = 1 - coverage`, `bottom = ((1+exec)*(1+prompt)).pow(exponent) as f32`,
`energy = top / bottom`.  The float arithmetic is embedded exactly over `ℚ`;
the `u32` denominator keeps its machine wrap-around. -/
def compute_energy (coverage : ℚ) (exec_count prompt_count exponent : ℕ) : ℚ :=
  (1 - coverage) / (energyDenom exec_count prompt_count exponent : ℚ)

/-! ### NaN model (for the NaN-coverage claim)

`Option ℚ` with `none` as NaN: IEEE-754 makes `1.0f32 - NaN = NaN` and
`NaN / x = NaN`, which is all `compute_energy` can do with a NaN coverage. -/

/-- `f32` subtraction with NaN propagation (`none` = NaN). -/
def fSub : Option ℚ → Option ℚ → Option ℚ
  | some a, some b => some (a - b)
  | _, _ => none

/-- `f32` division with NaN propagation (`none` = NaN).  On the `some` path
the quotient is embedded exactly; NaN operands propagate. -/
def fDiv : Option ℚ → Option ℚ → Option ℚ
  | some a, some b => some (a / b)
  | _, _ => none

/-- `Seed::compute_energy` (schedule.rs:52-60) with the coverage field in the
NaN-aware `f32` model.  The function body has no check, branch, `panic!` or
error path whatsoever: it is a straight-line computation, so the embedding is
total and simply returns the value that the source stores into `self.energy`. -/
def compute_energyF (coverage : Option ℚ)
    (exec_count prompt_count exponent : ℕ) : Option ℚ :=
  fDiv (fSub (some 1) coverage) (some (energyDenom exec_count prompt_count exponent : ℚ))

/-! ## Scheduler: the `seeds` map (schedule.rs:80-157)

The `HashMap<String, Seed>` is embedded as an association list from API name
to the seed's `energy`. -/

/-- `Schedule::initialize_energies_for_api_mode` (schedule.rs:113-120):
every gadget name is (re)inserted with `Seed::new_for_api_mode`, whose
`energy` field is `1.0` (schedule.rs:43-51). -/
def initialize_energies_for_api_mode (catalog : List String) : List (String × ℚ) :=
  catalog.map fun n => (n, 1)

/-- `Schedule::update_energies` (schedule.rs:122-137): the map is rebuilt from
the gadget catalog; `api_coverage.get(api_name).unwrap()` panics when a
cataloged API has no coverage value — embedded as the `none` result of the
`Option`-monadic fold.  `prompt_count`/`exec_count` default to 0 via
`unwrap_or(0)` (never fatal). -/
def update_energies (catalog : List String) (api_coverage : String → Option ℚ)
    (exec_counter prompt_counter : String → ℕ) (exponent : ℕ) :
    Option (List (String × ℚ)) :=
  catalog.foldlM
    (fun acc name =>
      (api_coverage name).map fun cov =>
        acc ++ [(name, compute_energy cov (exec_counter name) (prompt_counter name) exponent)])
    []

/-- One `seeds.get_mut(api)` + `seed.energy += 1.0` step of
`Schedule::update_energies_from_api_pairs` (schedule.rs:144-149): the entry
with the matching name is incremented; an absent name leaves the map
unchanged (the source's `if let Some(seed) = ...` silently falls through). -/
def bumpEnergy (m : List (String × ℚ)) (name : String) : List (String × ℚ) :=
  m.map fun p => if p.1 = name then (p.1, p.2 + 1) else p

/-- `Schedule::update_energies_from_api_pairs` (schedule.rs:138-157): early
return (no-op) on empty input, otherwise for each pair bump `api1` then
`api2`. -/
def update_energies_from_api_pairs (m : List (String × ℚ))
    (api_pairs : List (String × String)) : List (String × ℚ) :=
  if api_pairs = [] then m
  else api_pairs.foldl (fun acc p => bumpEnergy (bumpEnergy acc p.1) p.2) m

/-- How many increments `update_energies_from_api_pairs` causes for one
name: once for each pair slot (caller position or callee position) holding
that name. -/
def pairSlots (n : String) (pairs : List (String × String)) : ℕ :=
  pairs.countP (fun p => p.1 = n) + pairs.countP (fun p => p.2 = n)

/-- `Schedule::choose_low_energy_api`'s energy-collection loop
(schedule.rs:221-232): each name of the combination is looked up in `seeds`,
and a missing name panics (`unwrap_or_else(|| panic!(...))`) — embedded as
`none`. -/
def choose_low_energy_api_energies (m : List (String × ℚ)) :
    List String → Option (List ℚ)
  | [] => some []
  | name :: rest =>
    match m.lookup name with
    | none => none
    | some e =>
      match choose_low_energy_api_energies m rest with
      | none => none
      | some es => some (e :: es)

/-! ## FuzzLoop (`fuzzer.rs`)

The two generation loops of `Fuzzer::fuzz_loop` (fuzzer.rs:315-433) are
embedded as step functions on the fuzzer's convergence state, driven by a
finite script of per-round observations (what the external LLM handler,
validator and observer reported in that round). -/

/-- The configuration fields of `fuzz_loop` that the convergence logic reads
(config.rs: `fuzz_converge_round`, `recheck`). -/
structure DriverCfg where
  convergeRound : ℕ
  recheck : Bool
  deriving DecidableEq, Repr

/-- The fuzzer state that the `FuzzDriver`-mode loop threads between rounds:
`self.quiet_round` and the local `has_checked` flag. -/
structure DriverState where
  quiet : ℕ
  hasChecked : Bool
  deriving DecidableEq, Repr

/-- `Fuzzer::is_converge` (fuzzer.rs:277-282): `quiet_round >= fuzz_converge_round`. -/
def is_converge (convergeRound quiet : ℕ) : Bool := convergeRound ≤ quiet

/-- `Fuzzer::should_recheck` (fuzzer.rs:288-293):
`quiet_round >= fuzz_converge_round / 2 && recheck`. -/
def should_recheck (cfg : DriverCfg) (quiet : ℕ) : Bool :=
  decide (cfg.convergeRound / 2 ≤ quiet) && cfg.recheck

/-- One `FuzzDriver`-mode round body (fuzzer.rs:321-360), after the top
`is_converge` check.  `novel` holds, per accepted program in order, whether
`observer.has_unique_branch` was non-empty for it.  Faithful details:
`has_new` is overwritten by every iteration of the per-program loop
(fuzzer.rs:328), so only the last program's novelty survives; `is_stuck`
is `programs.len() == 0` (fuzzer.rs:284-286,322); the recheck branch
(fuzzer.rs:346-353) fires after the quiet-round update, sets
`has_checked = true` and resets `quiet_round = 0`. -/
def driverRound (cfg : DriverCfg) (s : DriverState) (novel : List Bool) : DriverState :=
  let hasNew := novel.getLastD false
  let isStuck := novel.isEmpty
  let quiet' := if hasNew then 0 else if ¬isStuck then s.quiet + 1 else s.quiet
  if should_recheck cfg quiet' && !s.hasChecked then
    { quiet := 0, hasChecked := true }
  else
    { quiet := quiet', hasChecked := s.hasChecked }

/-- The `FuzzDriver`-mode generation loop (fuzzer.rs:317-361) run on a finite
script of rounds.  Returns the final state and whether the loop exited via
the `is_converge` break (`true`) or merely exhausted the script (`false`).
The source loop contains no other `break`. -/
def driverLoop (cfg : DriverCfg) : List (List Bool) → DriverState → DriverState × Bool
  | [], s => (s, false)
  | r :: rs, s =>
    if is_converge cfg.convergeRound s.quiet then (s, true)
    else driverLoop cfg rs (driverRound cfg s r)

/-- Observation of one `ApiCombination`-mode round: how many programs
`generate_and_validate_api_sequences` accepted, and how many round-new API
pairs (`round_newly_discovered_pairs.len()`) their analysis produced. -/
structure ApiRoundObs where
  programLen : ℕ
  newPairs : ℕ
  deriving DecidableEq, Repr

/-- One `ApiCombination`-mode round body (fuzzer.rs:369-432), after the top
`is_converge` check.  Returns the new `quiet_round` and whether the round hit
the bottom break `round_newly_discovered_pairs.len() < 1 && program_len != 0`
(fuzzer.rs:430-432).  When no program is accepted the round `continue`s with
everything unchanged (fuzzer.rs:377-382). -/
def apiStep (quiet : ℕ) (r : ApiRoundObs) : ℕ × Bool :=
  if r.programLen = 0 then (quiet, false)
  else
    let hasNew := r.newPairs ≠ 0
    let quiet' := if hasNew then 0 else quiet + 1
    (quiet', decide (r.newPairs < 1) && decide (r.programLen ≠ 0))

/-- The `ApiCombination`-mode generation loop (fuzzer.rs:369-433) run on a
finite script of rounds: exits with `true` via the top `is_converge` break or
via the bottom no-new-pair break, `false` when the script is exhausted. -/
def apiLoop (convergeRound : ℕ) : List ApiRoundObs → ℕ → ℕ × Bool
  | [], quiet => (quiet, false)
  | r :: rs, quiet =>
    if is_converge convergeRound quiet then (quiet, true)
    else
      match apiStep quiet r with
      | (quiet', true) => (quiet', true)
      | (quiet', false) => apiLoop convergeRound rs quiet'

/-! ## FusionBatcher (`program/cntg.rs`) -/

/-- The batching loop of `CNTGProgram::synthesis` (cntg.rs:84-98): drivers
are pushed onto `batch` in order; the batch is flushed when it reaches
`self.batch` elements or at the last driver.  `batch` is the accumulator of
the current (unflushed) batch. -/
def synthGo (B : ℕ) (batch : List α) : List α → List (List α)
  | [] => []
  | [x] => [batch ++ [x]]
  | x :: y :: rest =>
    let batch' := batch ++ [x]
    if batch'.length = B then batch' :: synthGo B [] (y :: rest)
    else synthGo B batch' (y :: rest)

/-- `CNTGProgram::synthesis` (cntg.rs:75-100) restricted to its batching
behaviour: partition the sorted driver list into the batches for which cores
are synthesized, starting from an empty accumulator. -/
def synthesisBatches (B : ℕ) (drivers : List α) : List (List α) :=
  synthGo B [] drivers

/-- Specification-side description of the batching of the consecutive
ordinals `s, s+1, …, s+m-1` into chunks of `B`: used to characterize
`synthesisBatches` on `List.range n`. -/
def chunksFrom (B s m : ℕ) : List (List ℕ) :=
  if m = 0 then []
  else if B = 0 ∨ m ≤ B then [List.range' s m]
  else List.range' s B :: chunksFrom B (s + B) (m - B)
termination_by m
decreasing_by omega

/-- One forward declaration emitted by `CNTGProgram::synthesis_batch`
(cntg.rs:111-115) for ordinal `id`. -/
def declLine (lib : String) (id : ℕ) : String :=
  "int test_" ++ lib ++ "_api_sequence_" ++ toString id ++ "();\n"

/-- One `main`-body entry emitted by `CNTGProgram::synthesis_batch`
(cntg.rs:121-127): the progress message for position `i` followed by the call
of the entry point with suffix `id`. -/
def callLines (lib : String) (i id : ℕ) : String :=
  "\tstd::cout << \"Running program " ++ toString i ++ "...\" << std::endl;\n" ++
  "\ttest_" ++ lib ++ "_api_sequence_" ++ toString id ++ "();\n"

/-- `CNTGProgram::synthesis_batch` (cntg.rs:103-131): the generated `core.cc`
translation unit for one batch, with the library header block abstracted as
`header` (it is produced by the external
`deopt::utils::format_library_header_strings`). -/
def synthesis_batch (lib header : String) (batch_id : List ℕ) : String :=
  header ++ "\n\n" ++
  String.join (batch_id.map (declLine lib)) ++ "\n\n" ++
  "int main(int argc, char* argv[])\n\x7b\n" ++
  String.join ((batch_id.enum.map fun p => callLines lib p.1 p.2)) ++
  "\treturn 0;\n\x7d\n"

/-! ### Entry-point renaming (`CNTGProgram::change_driver_id`, cntg.rs:168-183)

Rust's `str::replace` substitutes the leftmost non-overlapping occurrences of
the pattern; it is embedded on `List Char` by `replaceAll`, together with the
splitter `splitOnStr` that returns the unchanged text between the matched
occurrences and the joiner `joinWith` that interleaves such parts with a
separator. -/

/-- `str::replace pat rep`: scan left to right; at a position where `pat`
matches, emit `rep` and resume after the match, otherwise emit the current
character.  (`pat = []` never matches, as in Rust an empty pattern is
excluded by the callers we embed — the canonical entry name is non-empty.) -/
def replaceAll (pat rep : List Char) : List Char → List Char
  | [] => []
  | c :: s =>
    if h : pat ≠ [] ∧ pat.isPrefixOf (c :: s) then
      rep ++ replaceAll pat rep ((c :: s).drop pat.length)
    else
      c :: replaceAll pat rep s
termination_by s => s.length
decreasing_by
  · simp only [List.length_drop, List.length_cons]
    have : 1 ≤ pat.length := List.length_pos.mpr h.1
    omega
  · simp

/-- The in-between parts of the same left-to-right scan: `splitOnStr pat s`
is the list of maximal unmatched segments, in order, such that `s` is their
interleaving with `pat`. -/
def splitOnStr (pat : List Char) : List Char → List (List Char)
  | [] => [[]]
  | c :: s =>
    if h : pat ≠ [] ∧ pat.isPrefixOf (c :: s) then
      [] :: splitOnStr pat ((c :: s).drop pat.length)
    else
      match splitOnStr pat s with
      | [] => [[c]]
      | t :: ts => (c :: t) :: ts
termination_by s => s.length
decreasing_by
  · simp only [List.length_drop, List.length_cons]
    have : 1 ≤ pat.length := List.length_pos.mpr h.1
    omega
  · simp

/-- Interleave parts with a separator: `joinWith sep [t₀, t₁, …, tₖ] =
t₀ ++ sep ++ t₁ ++ sep ++ … ++ tₖ`. -/
def joinWith (sep : List Char) : List (List Char) → List Char
  | [] => []
  | [t] => t
  | t :: ts => t ++ sep ++ joinWith sep ts

/-- The canonical entry-function name `format!("test_{}_api_sequence", lib)`
built in `change_driver_id` (cntg.rs:176). -/
def canonicalName (lib : String) : List Char :=
  ("test_" ++ lib ++ "_api_sequence").toList

/-- The ordinal-suffixed variant `format!("{}_{}", function_name, driver_id)`
(cntg.rs:179). -/
def suffixedName (lib : String) (driver_id : ℕ) : List Char :=
  canonicalName lib ++ ('_' :: (toString driver_id).toList)

/-- `CNTGProgram::change_driver_id` (cntg.rs:168-183) on the file's text:
`buf.replace(&function_name, &format!("{}_{}", function_name, driver_id))`. -/
def change_driver_id (lib : String) (driver_id : ℕ) (buf : List Char) : List Char :=
  replaceAll (canonicalName lib) (suffixedName lib driver_id) buf

/-! ### Concurrent compile (`CNTGProgram::compile`, cntg.rs:185-214) -/

/-- Possible outcomes of a Rust function embedded with its panic channel:
a normal value, an `Err` return, or a propagating panic. -/
inductive RunResult (α : Type) where
  | ok (a : α)
  | errReturn
  | panicked
  deriving DecidableEq, Repr

/-- The join loop inside the `thread::scope` closure (cntg.rs:206-211),
driven by each worker's outcome in spawn order (`true` = the worker
finished without panicking, `false` = it panicked, i.e. its
`compile_lib_fuzzers(...).unwrap()` or `copy_library_init_file(...).unwrap()`
failed).  On the first failed `join` the closure returns `Err` immediately;
the returned list is the suffix of handles it never joined. -/
def compileJoinLoop : List Bool → Bool × List Bool
  | [] => (true, [])
  | h :: t => if h then compileJoinLoop t else (false, t)

/-- `CNTGProgram::compile` (cntg.rs:185-214): `thread::scope` joins every
remaining (explicitly un-joined) worker before returning, and re-raises a
panic whenever one of those automatically-joined workers had panicked — the
manually joined failure only makes the closure return `Err(eyre!(""))`.
All workers therefore always run to completion; the result is `ok` when all
succeed, `errReturn` when the first failure is the only one left unhandled,
and `panicked` when a worker after the first failure also panicked. -/
def compileModel (outcomes : List Bool) : RunResult Unit :=
  match compileJoinLoop outcomes with
  | (true, _) => .ok ()
  | (false, rest) => if rest.all id then .errReturn else .panicked

/-! ## `SeedMetas::update_cov` (cntg_program/seed_metas.rs:83-107) -/

/-- The fields of one `SeedMeta` record that `update_cov` reads: the seed's
path and its `duration_since_start` sort key (a `Duration`, embedded as an
exact non-negative rational number of seconds). -/
structure SeedMetaM where
  seed_path : String
  duration_since_start : ℚ
  deriving DecidableEq, Repr

/-- The per-seed body of `update_cov`'s loop (seed_metas.rs:90-104): resolve
the stem, wipe and recreate the per-seed coverage directory, then `chdir`,
`synthesis` and `compile` the one-seed `CNTGProgram`.  Every one of these
steps can fail with `?`/`return Err(...)`; the whole body is abstracted as a
caller-supplied fallible step (`none` = some step returned `Err`), since the
`cntg_program::CNTGProgram` collaborator is outside the embedded sources. -/
def UpdateCovStep : Type := SeedMetaM → Option Unit

/-- The loop of `update_cov` after sorting, followed by the unconditional
`todo!()` (seed_metas.rs:106): processing every seed successfully falls
through to `todo!()`, which panics. -/
def updateCovLoop (step : UpdateCovStep) : List SeedMetaM → RunResult Unit
  | [] => .panicked
  | m :: rest =>
    match step m with
    | none => .errReturn
    | some _ => updateCovLoop step rest

/-- `SeedMetas::update_cov` (seed_metas.rs:83-107): `workspace` is the result
of the fallible `deopt.get_library_work_dir()?` prologue; the metas are
sorted by `duration_since_start` (`sort_by_key`, seed_metas.rs:85-86) and
processed in order; the loop epilogue is `todo!()`. -/
def update_cov (workspace : Option Unit) (step : UpdateCovStep)
    (metas : List SeedMetaM) : RunResult Unit :=
  match workspace with
  | none => .errReturn
  | some _ =>
      updateCovLoop step
        (metas.mergeSort fun a b => a.duration_since_start ≤ b.duration_since_start)

/-! ## Helper lemmas -/

/-- The wrapping `u32` denominator is the mathematical power reduced mod `2^32`. -/
theorem energyDenom_eq_mod (e p k : ℕ) :
    energyDenom e p k = ((1 + e) * (1 + p)) ^ k % 2 ^ 32 := by
  simp [energyDenom, wrap32, ← Nat.mul_mod, ← Nat.pow_mod]

/-- Below the wrap-around point the denominator is exact. -/
theorem energyDenom_eq_of_lt {e p k : ℕ} (h : ((1 + e) * (1 + p)) ^ k < 2 ^ 32) :
    energyDenom e p k = ((1 + e) * (1 + p)) ^ k := by
  rw [energyDenom_eq_mod]; exact Nat.mod_eq_of_lt h

/-- Effect of one `bumpEnergy` on a lookup. -/
theorem lookup_bumpEnergy (m : List (String × ℚ)) (a n : String) :
    (bumpEnergy m a).lookup n =
      if n = a then (m.lookup n).map (· + 1) else m.lookup n := by
  induction m with
  | nil => by_cases h : n = a <;> simp [bumpEnergy, h]
  | cons q m ih =>
      obtain ⟨k, v⟩ := q
      by_cases hk : k = a
      · subst hk
        by_cases hn : n = k
        · subst hn
          simp [bumpEnergy, List.lookup_cons]
        · simp [bumpEnergy, List.lookup_cons, beq_false_of_ne hn, hn] at ih ⊢
          exact ih
      · by_cases hn : n = k
        · subst hn
          simp [bumpEnergy, hk, List.lookup_cons, Ne.symm hk, beq_false_of_ne (Ne.symm hk)]
        · simp [bumpEnergy, hk, List.lookup_cons, beq_false_of_ne hn] at ih ⊢
          exact ih

theorem lookup_foldl_bump (pairs : List (String × String)) :
    ∀ (m : List (String × ℚ)) (n : String) (e : ℚ), m.lookup n = some e →
    (pairs.foldl (fun acc p => bumpEnergy (bumpEnergy acc p.1) p.2) m).lookup n =
      some (e + (pairSlots n pairs : ℕ)) := by
  induction pairs with
  | nil => intro m n e h; simpa [pairSlots] using h
  | cons p ps ih =>
      intro m n e h
      have h1 : (bumpEnergy (bumpEnergy m p.1) p.2).lookup n =
          some (e + ((if p.1 = n then 1 else 0) + (if p.2 = n then 1 else 0) : ℕ)) := by
        rw [lookup_bumpEnergy, lookup_bumpEnergy]
        by_cases hp1 : p.1 = n <;> by_cases hp2 : p.2 = n
        · simp [hp1, hp2, h]
          ring
        · have hp2' : ¬n = p.2 := fun hh => hp2 hh.symm
          simp [hp1, hp2, hp2', h]
        · have hp1' : ¬n = p.1 := fun hh => hp1 hh.symm
          simp [hp1, hp2, hp1', h]
        · have hp1' : ¬n = p.1 := fun hh => hp1 hh.symm
          have hp2' : ¬n = p.2 := fun hh => hp2 hh.symm
          simp [hp1, hp2, hp1', hp2', h]
      have := ih _ n _ h1
      rw [List.foldl_cons, this]
      have hslots : pairSlots n (p :: ps) =
          ((if p.1 = n then 1 else 0) + (if p.2 = n then 1 else 0)) + pairSlots n ps := by
        simp only [pairSlots, List.countP_cons]
        by_cases hp1 : p.1 = n <;> by_cases hp2 : p.2 = n <;> simp [hp1, hp2] <;> omega
      rw [hslots]
      push_cast
      ring_nf

/-- The `Option`-monadic coverage fold of `update_energies` fails exactly when
some cataloged name has no coverage. -/
theorem update_energies_none_iff (catalog : List String)
    (cov : String → Option ℚ) (ec pc : String → ℕ) (k : ℕ) :
    update_energies catalog cov ec pc k = none ↔ ∃ n ∈ catalog, cov n = none := by
  unfold update_energies
  suffices h : ∀ acc : List (String × ℚ),
      catalog.foldlM
        (fun acc name =>
          (cov name).map fun c =>
            acc ++ [(name, compute_energy c (ec name) (pc name) k)]) acc = none ↔
        ∃ n ∈ catalog, cov n = none from h []
  induction catalog with
  | nil => simp
  | cons n ns ih =>
      intro acc
      rw [List.foldlM_cons]
      cases hc : cov n with
      | none => simp [hc]
      | some c => simpa [hc, Option.map_some] using ih _

theorem choose_low_none_iff (m : List (String × ℚ)) (comb : List String) :
    choose_low_energy_api_energies m comb = none ↔ ∃ n ∈ comb, m.lookup n = none := by
  induction comb with
  | nil => simp [choose_low_energy_api_energies]
  | cons n ns ih =>
      rw [choose_low_energy_api_energies]
      cases hc : m.lookup n with
      | none =>
          constructor
          · intro _
            exact ⟨n, List.mem_cons_self _ _, hc⟩
          · intro _
            rfl
      | some v =>
          cases hrest : choose_low_energy_api_energies m ns with
          | none =>
              constructor
              · intro _
                obtain ⟨x, hx, hlx⟩ := ih.mp hrest
                exact ⟨x, List.mem_cons_of_mem _ hx, hlx⟩
              · intro _
                rfl
          | some vs =>
              constructor
              · intro h
                exact absurd h (by simp)
              · rintro ⟨x, hx, hlx⟩
                rcases List.mem_cons.mp hx with rfl | hx'
                · rw [hc] at hlx; cases hlx
                · exact absurd (ih.mpr ⟨x, hx', hlx⟩) (by simp [hrest])

/-- A `bumpEnergy` for a name absent from the map is the identity. -/
theorem bumpEnergy_of_lookup_none (m : List (String × ℚ)) (a : String)
    (h : m.lookup a = none) : bumpEnergy m a = m := by
  induction m with
  | nil => rfl
  | cons q m ih =>
      obtain ⟨k, v⟩ := q
      by_cases hk : a = k
      · subst hk
        simp [List.lookup_cons] at h
      · simp only [List.lookup_cons, beq_false_of_ne hk] at h
        have hk' : ¬k = a := fun hh => hk hh.symm
        have htail : bumpEnergy m a = m := ih h
        simp [bumpEnergy, hk'] at htail ⊢
        exact htail

theorem foldl_bump_of_absent (pairs : List (String × String)) (m : List (String × ℚ))
    (h : ∀ p ∈ pairs, m.lookup p.1 = none ∧ m.lookup p.2 = none) :
    pairs.foldl (fun acc p => bumpEnergy (bumpEnergy acc p.1) p.2) m = m := by
  induction pairs with
  | nil => rfl
  | cons p ps ih =>
      have h1 := (h p (List.mem_cons_self _ _)).1
      have h2 := (h p (List.mem_cons_self _ _)).2
      rw [List.foldl_cons, bumpEnergy_of_lookup_none _ _ h1,
        bumpEnergy_of_lookup_none _ _ h2]
      exact ih fun q hq => h q (List.mem_cons_of_mem _ hq)

theorem updateCovLoop_not_ok (step : UpdateCovStep) (l : List SeedMetaM) :
    updateCovLoop step l = RunResult.errReturn ∨
      updateCovLoop step l = RunResult.panicked := by
  induction l with
  | nil => exact Or.inr rfl
  | cons m rest ih =>
      cases hs : step m with
      | none => simp [updateCovLoop, hs]
      | some u =>
          simp only [updateCovLoop, hs]
          exact ih

theorem updateCovLoop_all_some (step : UpdateCovStep) (hstep : ∀ m, step m = some ())
    (l : List SeedMetaM) : updateCovLoop step l = RunResult.panicked := by
  induction l with
  | nil => rfl
  | cons m rest ih => simp only [updateCovLoop, hstep m]; exact ih

/-! ## Claim theorems -/

/-- C1 (counterexample): with `coverage = 0 ∈ [0,1]`, `prompt_count = 0` and
`exponent = 0`, `compute_energy` is not strictly decreasing in `exec_count`:
at `exponent = 0` the denominator `((1+exec)·(1+prompt))^0` is `1` whatever
the counters are, so the energy at `exec_count = 1` equals the energy at
`exec_count = 0` instead of being strictly smaller.  The claim quantifies
over every `exponent ≥ 0`, hence fails at `exponent = 0`. -/
theorem c1_counterexample :
    (0:ℚ) ≤ 0 ∧ (0:ℚ) ≤ 1 ∧ compute_energy 0 1 0 0 = compute_energy 0 0 0 0 := by
  refine ⟨le_refl _, by norm_num, ?_⟩
  have h1 : energyDenom 1 0 0 = 1 := by rw [energyDenom_eq_mod]; norm_num
  have h0 : energyDenom 0 0 0 = 1 := by rw [energyDenom_eq_mod]; norm_num
  unfold compute_energy
  rw [h1, h0]

/-- C1 (amended): for `coverage ∈ [0,1]` and any counters and exponent whose
`u32` power does not wrap (`((2+exec)·(2+prompt))^exponent < 2^32`, which
covers both the point and its successor in each argument),
`compute_energy` returns exactly `(1-coverage) / ((1+exec)·(1+prompt))^exponent`
and is non-negative (hence finite in the embedding); it is strictly
decreasing in `exec_count` and in `prompt_count` under the additional
conditions the counterexample forces: `coverage < 1` and `exponent ≥ 1`. -/
theorem c1_amended (c : ℚ) (e p k : ℕ) (hc0 : 0 ≤ c) (hc1 : c ≤ 1)
    (hov : ((2 + e) * (2 + p)) ^ k < 2 ^ 32) :
    compute_energy c e p k = (1 - c) / ((((1 + e) * (1 + p)) ^ k : ℕ) : ℚ) ∧
    0 ≤ compute_energy c e p k ∧
    (c < 1 → 1 ≤ k → compute_energy c (e + 1) p k < compute_energy c e p k) ∧
    (c < 1 → 1 ≤ k → compute_energy c e (p + 1) k < compute_energy c e p k) := by
  have hD0 : ((1 + e) * (1 + p)) ^ k < 2 ^ 32 :=
    lt_of_le_of_lt (Nat.pow_le_pow_left (Nat.mul_le_mul (by omega) (by omega)) k) hov
  have hD1 : ((1 + (e + 1)) * (1 + p)) ^ k < 2 ^ 32 :=
    lt_of_le_of_lt (Nat.pow_le_pow_left (Nat.mul_le_mul (by omega) (by omega)) k) hov
  have hD2 : ((1 + e) * (1 + (p + 1))) ^ k < 2 ^ 32 :=
    lt_of_le_of_lt (Nat.pow_le_pow_left (Nat.mul_le_mul (by omega) (by omega)) k) hov
  have heq0 : compute_energy c e p k = (1 - c) / ((((1 + e) * (1 + p)) ^ k : ℕ) : ℚ) := by
    unfold compute_energy
    rw [energyDenom_eq_of_lt hD0]
  refine ⟨heq0, ?_, ?_, ?_⟩
  · rw [heq0]
    exact div_nonneg (by linarith) (Nat.cast_nonneg _)
  · intro hc hk
    unfold compute_energy
    rw [energyDenom_eq_of_lt hD1, energyDenom_eq_of_lt hD0]
    apply div_lt_div_of_pos_left (by linarith)
    · have : 0 < ((1 + e) * (1 + p)) ^ k := Nat.pos_pow_of_pos k (by positivity)
      exact_mod_cast this
    · have hbase : (1 + e) * (1 + p) < (1 + (e + 1)) * (1 + p) :=
        (Nat.mul_lt_mul_right (show 0 < 1 + p by omega)).mpr (by omega)
      exact_mod_cast Nat.pow_lt_pow_left hbase (by omega)
  · intro hc hk
    unfold compute_energy
    rw [energyDenom_eq_of_lt hD2, energyDenom_eq_of_lt hD0]
    apply div_lt_div_of_pos_left (by linarith)
    · have : 0 < ((1 + e) * (1 + p)) ^ k := Nat.pos_pow_of_pos k (by positivity)
      exact_mod_cast this
    · have hbase : (1 + e) * (1 + p) < (1 + e) * (1 + (p + 1)) :=
        (Nat.mul_lt_mul_left (show 0 < 1 + e by omega)).mpr (by omega)
      exact_mod_cast Nat.pow_lt_pow_left hbase (by omega)

/-- C1 (witness): the amended theorem applied at
`coverage = 0, exec = 0, prompt = 0, exponent = 1`. -/
theorem c1_witness :
    ((0:ℚ) ≤ 0) ∧ ((0:ℚ) ≤ 1) ∧ (((2 + 0) * (2 + 0)) ^ 1 < 2 ^ 32) ∧
      compute_energy 0 (0 + 1) 0 1 < compute_energy 0 0 0 1 :=
  ⟨le_refl _, by norm_num, by norm_num,
    (c1_amended 0 0 0 1 (le_refl _) (by norm_num) (by norm_num)).2.2.1
      (by norm_num) (le_refl _)⟩

/-- C5 (counterexample): `update_energies_from_api_pairs` applied to a pair
both of whose names are unregistered returns normally and silently leaves the
map unchanged (`if let Some(seed) = self.seeds.get_mut(api)` falls through,
schedule.rs:144-149) — contradicting "no Scheduler operation silently …
skips such a name". -/
theorem c5_counterexample :
    update_energies_from_api_pairs [("f", 1)] [("g", "h")] = [("f", 1)] := by
  decide

/-- C5 (amended): energy lookups in `update_energies` (a cataloged API
missing a coverage value) and in `choose_low_energy_api` (an unregistered
combination member) are fatal, exactly when such a name exists; but
`update_energies_from_api_pairs` is the exception: pair members absent from
the mapping are silently skipped, leaving the map unchanged. -/
theorem c5_amended :
    (∀ (catalog : List String) (cov : String → Option ℚ) (ec pc : String → ℕ) (k : ℕ),
      update_energies catalog cov ec pc k = none ↔ ∃ n ∈ catalog, cov n = none) ∧
    (∀ (m : List (String × ℚ)) (comb : List String),
      choose_low_energy_api_energies m comb = none ↔ ∃ n ∈ comb, m.lookup n = none) ∧
    (∀ (m : List (String × ℚ)) (pairs : List (String × String)),
      (∀ p ∈ pairs, m.lookup p.1 = none ∧ m.lookup p.2 = none) →
      update_energies_from_api_pairs m pairs = m) := by
  refine ⟨update_energies_none_iff, choose_low_none_iff, ?_⟩
  intro m pairs h
  unfold update_energies_from_api_pairs
  by_cases hp : pairs = []
  · rw [if_pos hp]
  · rw [if_neg hp]
    exact foldl_bump_of_absent pairs m h

/-- C5 (witness): the amended theorem at a concrete catalog with one API
lacking coverage (fatal), one unregistered combination member (fatal), and
one skipped pair. -/
theorem c5_witness :
    (update_energies ["f"] (fun _ => none) (fun _ => 0) (fun _ => 0) 1 = none ↔
      ∃ n ∈ ["f"], (fun _ : String => (none : Option ℚ)) n = none) ∧
    (∀ p ∈ [(("g" : String), ("h" : String))],
      ([(("f" : String), (1 : ℚ))].lookup p.1 = none ∧
        [(("f" : String), (1 : ℚ))].lookup p.2 = none)) ∧
    update_energies_from_api_pairs [("f", 1)] [("g", "h")] = [("f", 1)] :=
  ⟨c5_amended.1 ["f"] (fun _ => none) (fun _ => 0) (fun _ => 0) 1,
    by decide,
    c5_amended.2.2 [("f", 1)] [("g", "h")] (by decide)⟩

/-- C8 (counterexample): a self-pair `(f, f)` — one supplied pair in which
`f` participates — increments `f`'s energy by `2.0` (once as `api1`, once as
`api2`, schedule.rs:143-150), not by `1.0` as the claim states. -/
theorem c8_counterexample :
    update_energies_from_api_pairs [("f", 1)] [("f", "f")] = [("f", 3)] ∧
      (3 : ℚ) ≠ 1 + 1 := by
  constructor
  · unfold update_energies_from_api_pairs
    rw [if_neg (by simp)]
    simp [bumpEnergy]
    norm_num
  · norm_num

/-- C8 (amended): after API-mode initialization every cataloged API's energy
is exactly `1.0`; `update_energies_from_api_pairs` is a no-op on empty input,
and otherwise adds exactly `1.0` to a registered API's energy for each pair
slot (caller position or callee position) that holds its name — so an
ordinary pair contributes `1.0` to each of its two distinct members, while a
self-pair contributes `2.0` to its one member; consequently no registered
API's energy ever decreases. -/
theorem c8_amended :
    (∀ (catalog : List String) (n : String), n ∈ catalog →
      (initialize_energies_for_api_mode catalog).lookup n = some 1) ∧
    (∀ m : List (String × ℚ), update_energies_from_api_pairs m [] = m) ∧
    (∀ (m : List (String × ℚ)) (pairs : List (String × String)) (n : String) (e : ℚ),
      m.lookup n = some e →
      (update_energies_from_api_pairs m pairs).lookup n =
        some (e + (pairSlots n pairs : ℕ))) ∧
    (∀ (m : List (String × ℚ)) (pairs : List (String × String)) (n : String) (e : ℚ),
      m.lookup n = some e →
      ∃ e', (update_energies_from_api_pairs m pairs).lookup n = some e' ∧ e ≤ e') := by
  have hpart3 : ∀ (m : List (String × ℚ)) (pairs : List (String × String))
      (n : String) (e : ℚ), m.lookup n = some e →
      (update_energies_from_api_pairs m pairs).lookup n =
        some (e + (pairSlots n pairs : ℕ)) := by
    intro m pairs n e h
    unfold update_energies_from_api_pairs
    by_cases hp : pairs = []
    · subst hp
      simp [pairSlots, h]
    · rw [if_neg hp]
      exact lookup_foldl_bump pairs m n e h
  refine ⟨?_, ?_, hpart3, ?_⟩
  · intro catalog n hn
    induction catalog with
    | nil => cases hn
    | cons k ks ih =>
        rcases List.mem_cons.mp hn with rfl | hn'
        · simp [initialize_energies_for_api_mode, List.lookup_cons]
        · by_cases hk : n = k
          · subst hk
            simp [initialize_energies_for_api_mode, List.lookup_cons]
          · simp only [initialize_energies_for_api_mode, List.map_cons,
              List.lookup_cons, beq_false_of_ne hk]
            exact ih hn'
  · intro m
    rfl
  · intro m pairs n e h
    exact ⟨e + (pairSlots n pairs : ℕ), hpart3 m pairs n e h,
      le_add_of_nonneg_right (by positivity)⟩

/-- C8 (witness): the amended theorem at a one-API catalog and the self-pair
input. -/
theorem c8_witness :
    ("f" ∈ ["f"]) ∧
    (initialize_energies_for_api_mode ["f"]).lookup "f" = some 1 ∧
    ∃ e', (update_energies_from_api_pairs [("f", 1)] [("f", "f")]).lookup "f" =
      some e' ∧ (1 : ℚ) ≤ e' :=
  ⟨by decide, c8_amended.1 ["f"] "f" (by decide),
    c8_amended.2.2.2 [("f", 1)] [("f", "f")] "f" 1 (by decide)⟩

/-- C9 (counterexample): `compute_energy` does not reject a NaN coverage —
it has no check, error return or panic at all; at NaN coverage it computes
`1 - NaN = NaN`, divides, and returns (and stores) NaN as the energy, here at
`exec = prompt = 0, exponent = 1`. -/
theorem c9_counterexample : compute_energyF none 0 0 1 = none := rfl

/-- C9 (amended): `compute_energy` performs no NaN check: for every
exec/prompt counter and exponent, a NaN coverage propagates through
`top = 1 - coverage` and `top / bottom` to the returned (and stored) energy,
which is NaN; the function never aborts or signals an error. -/
theorem c9_amended (e p k : ℕ) : compute_energyF none e p k = none := rfl

/-- The NaN-aware model agrees with the exact model on non-NaN coverage. -/
theorem compute_energyF_coe (c : ℚ) (e p k : ℕ) :
    compute_energyF (some c) e p k = some (compute_energy c e p k) := rfl

/-- C10: `SeedMetas::update_cov` never returns `Ok`: every run either
propagates an `Err` from its fallible prologue or per-seed body, or — after
sorting the metas by `duration_since_start` and processing every seed
successfully — reaches the unconditional `todo!()` and panics.  In
particular, when every step succeeds the result is exactly the panic. -/
theorem c10_update_cov_never_ok :
    (∀ (w : Option Unit) (step : UpdateCovStep) (metas : List SeedMetaM),
      update_cov w step metas = RunResult.errReturn ∨
      update_cov w step metas = RunResult.panicked) ∧
    (∀ (step : UpdateCovStep) (metas : List SeedMetaM), (∀ m, step m = some ()) →
      update_cov (some ()) step metas = RunResult.panicked) := by
  constructor
  · intro w step metas
    cases w with
    | none => exact Or.inl rfl
    | some u => exact updateCovLoop_not_ok step _
  · intro step metas hstep
    exact updateCovLoop_all_some step hstep _

/-- C10 (witness): a run with a successful workspace prologue and an
always-successful per-seed body ends in the `todo!()` panic, never `Ok`. -/
theorem c10_witness :
    update_cov (some ()) (fun _ => some ()) [⟨"s", 0⟩] = RunResult.panicked :=
  c10_update_cov_never_ok.2 (fun _ => some ()) [⟨"s", 0⟩] (fun _ => rfl)

/-- A round that broke out of the `ApiCombination` loop bottom accepted at
least one program and discovered no new pair. -/
theorem apiStep_break_iff (q : ℕ) (r : ApiRoundObs) :
    (apiStep q r).2 = true → r.programLen ≠ 0 ∧ r.newPairs = 0 := by
  unfold apiStep
  by_cases h : r.programLen = 0
  · simp [h]
  · simp [h, Nat.lt_one_iff]

/-- C2 (counterexample): in `ApiCombination` mode with the default threshold
`fuzz_converge_round = 10`, a single round that accepts one program but
discovers no new API pair makes the loop exit immediately via the bottom
break (fuzzer.rs:430-432) with `quiet_round = 1 < 10` — the loop exits the
generation loop before the quiet-round count reaches the configured
convergence threshold. -/
theorem c2_counterexample :
    apiLoop 10 [⟨1, 0⟩] 0 = (1, true) ∧ 1 < 10 := ⟨rfl, by norm_num⟩

/-- C2 (amended): in `FuzzDriver` mode the loop exits only through the top
`is_converge` check, i.e. only with `quiet_round ≥ threshold`, and the
quiet counter resets to 0 on any round whose last accepted program observed
new coverage.  In `ApiCombination` mode an exit happens either with
`quiet_round ≥ threshold` at the top of a round or through the bottom break
of a round that accepted programs but discovered no new pair; the counter
resets to 0 on any round discovering a new pair, and increments (with the
round then breaking) on a round with programs and no new pair. -/
theorem c2_amended :
    (∀ (cfg : DriverCfg) (script : List (List Bool)) (s : DriverState),
      (driverLoop cfg script s).2 = true →
      cfg.convergeRound ≤ (driverLoop cfg script s).1.quiet) ∧
    (∀ (cfg : DriverCfg) (s : DriverState) (novel : List Bool),
      novel.getLastD false = true → (driverRound cfg s novel).quiet = 0) ∧
    (∀ (t : ℕ) (script : List ApiRoundObs) (q : ℕ),
      (apiLoop t script q).2 = true →
      t ≤ (apiLoop t script q).1 ∨ ∃ r ∈ script, r.programLen ≠ 0 ∧ r.newPairs = 0) ∧
    (∀ (q : ℕ) (r : ApiRoundObs), r.programLen ≠ 0 → r.newPairs ≠ 0 →
      (apiStep q r).1 = 0) ∧
    (∀ (q : ℕ) (r : ApiRoundObs), r.programLen ≠ 0 → r.newPairs = 0 →
      (apiStep q r).1 = q + 1 ∧ (apiStep q r).2 = true) := by
  refine ⟨?_, ?_, ?_, ?_, ?_⟩
  · intro cfg script
    induction script with
    | nil => intro s h; simp [driverLoop] at h
    | cons r rs ih =>
        intro s h
        by_cases hc : is_converge cfg.convergeRound s.quiet = true
        · rw [driverLoop, if_pos hc] at h ⊢
          simpa [is_converge] using hc
        · rw [driverLoop, if_neg hc] at h ⊢
          exact ih _ h
  · intro cfg s novel h
    simp only [driverRound, h, if_true]
    split <;> rfl
  · intro t script
    induction script with
    | nil => intro q h; simp [apiLoop] at h
    | cons r rs ih =>
        intro q h
        by_cases hc : is_converge t q = true
        · rw [apiLoop, if_pos hc] at h ⊢
          left
          simpa [is_converge] using hc
        · rw [apiLoop, if_neg hc] at h ⊢
          rcases hstep : apiStep q r with ⟨q', brk⟩
          rw [hstep] at h
          cases brk with
          | true =>
              right
              have hr := apiStep_break_iff q r (by rw [hstep])
              exact ⟨r, List.mem_cons_self _ _, hr⟩
          | false =>
              rcases ih q' h with hle | ⟨r', hr', hp⟩
              · exact Or.inl hle
              · exact Or.inr ⟨r', List.mem_cons_of_mem _ hr', hp⟩
  · intro q r hl h
    unfold apiStep
    simp [hl, h]
  · intro q r hl hp
    unfold apiStep
    simp [hl, hp]

/-- C2 (witness): the amended theorem's `ApiCombination` exit
characterization applied to the run that breaks out after one quiet round. -/
theorem c2_witness :
    (apiLoop 10 [⟨1, 0⟩] 0).2 = true ∧
      (10 ≤ (apiLoop 10 [⟨1, 0⟩] 0).1 ∨
        ∃ r ∈ [ApiRoundObs.mk 1 0], r.programLen ≠ 0 ∧ r.newPairs = 0) :=
  ⟨rfl, c2_amended.2.2.1 10 [⟨1, 0⟩] 0 rfl⟩

/-- C6 (counterexample): with two failing batches, `compile` does not return
an error: the `for handle in handles` loop returns `Err` at the first failed
join without joining the second handle, `thread::scope` then joins the second
(panicked) worker automatically and re-raises its panic — `compile` panics
out instead of reporting an aggregated error. -/
theorem c6_counterexample :
    compileModel [false, false] = RunResult.panicked ∧
      compileModel [false, false] ≠ RunResult.errReturn := by
  exact ⟨rfl, by decide⟩

/-- C6 (amended): all batch workers always run to completion
(`thread::scope` joins every spawned worker before `compile` returns or
panics, so other batches' artifacts stay usable), and the aggregate result
seen by the caller is: success when every batch compiles; an `Err` return —
produced only after the scope has joined all workers — when exactly one
batch fails; and a propagated worker panic (not an error return) when two or
more batches fail, because the handles after the first failed join are left
to the scope's automatic join, which re-raises their panic. -/
theorem c6_amended (outcomes : List Bool) :
    (compileModel outcomes = RunResult.ok () ↔ outcomes.all id = true) ∧
    (compileModel outcomes = RunResult.errReturn ↔
      outcomes.countP (fun b => !b) = 1) ∧
    (compileModel outcomes = RunResult.panicked ↔
      2 ≤ outcomes.countP (fun b => !b)) := by
  induction outcomes with
  | nil => refine ⟨by simp [compileModel, compileJoinLoop], ?_, ?_⟩ <;>
      simp [compileModel, compileJoinLoop]
  | cons b t ih =>
      cases b with
      | true =>
          have hmodel : compileModel (true :: t) = compileModel t := rfl
          rw [hmodel]
          simpa [List.countP_cons] using ih
      | false =>
          have hcount : (false :: t).countP (fun b => !b) =
              t.countP (fun b => !b) + 1 := by
            simp [List.countP_cons]
          by_cases ht : t.all id = true
          · have hzero : t.countP (fun b => !b) = 0 := by
              rw [List.countP_eq_zero]
              intro a ha
              have := (List.all_eq_true.mp ht) a ha
              simp_all
            have hmodel : compileModel (false :: t) = RunResult.errReturn := by
              simp [compileModel, compileJoinLoop, ht]
            rw [hmodel, hcount, hzero]
            refine ⟨by simp, by simp, by simp⟩
          · have hf : t.all id = false := by
              cases hall : t.all id
              · rfl
              · exact absurd hall ht
            have hpos : 0 < t.countP (fun b => !b) := by
              rw [List.countP_pos_iff]
              rcases List.all_eq_false.mp hf with ⟨x, hx, hxf⟩
              cases x with
              | false => exact ⟨false, hx, rfl⟩
              | true => simp at hxf
            have hmodel : compileModel (false :: t) = RunResult.panicked := by
              simp [compileModel, compileJoinLoop, ht]
            rw [hmodel, hcount]
            refine ⟨by simp, ?_, ?_⟩
            · constructor
              · intro h
                exact absurd h (by simp)
              · intro h
                omega
            · constructor
              · intro _
                omega
              · intro _
                rfl

/-- The batching loop never produces an empty batch list from a non-empty
driver list. -/
theorem synthGo_ne_nil {α} (B : ℕ) :
    ∀ (l : List α) (batch : List α), l ≠ [] → synthGo B batch l ≠ [] := by
  intro l
  induction l with
  | nil => intro batch h; exact absurd rfl h
  | cons x rest ih =>
      intro batch _
      cases rest with
      | nil => simp [synthGo]
      | cons y rest2 =>
          rw [synthGo]
          split
          · simp
          · exact ih _ (by simp)

/-- Concatenating the produced batches restores the pending accumulator
followed by the remaining drivers. -/
theorem synthGo_join {α} (B : ℕ) :
    ∀ (l : List α) (batch : List α), l ≠ [] →
      (synthGo B batch l).flatten = batch ++ l := by
  intro l
  induction l with
  | nil => intro batch h; exact absurd rfl h
  | cons x rest ih =>
      intro batch _
      cases rest with
      | nil => simp [synthGo]
      | cons y rest2 =>
          rw [synthGo]
          split
          · rw [List.flatten_cons, ih [] (by simp)]
            simp
          · rw [ih (batch ++ [x]) (by simp)]
            simp

/-- Every batch the loop produces has between 1 and `B` drivers, provided the
pending accumulator is strictly below `B`. -/
theorem synthGo_length_le {α} (B : ℕ) :
    ∀ (l : List α) (batch : List α), batch.length < B →
      ∀ c ∈ synthGo B batch l, 1 ≤ c.length ∧ c.length ≤ B := by
  intro l
  induction l with
  | nil => intro batch _ c hc; simp [synthGo] at hc
  | cons x rest ih =>
      intro batch hb c hc
      cases rest with
      | nil =>
          simp only [synthGo, List.mem_singleton] at hc
          subst hc
          simp only [List.length_append, List.length_singleton]
          omega
      | cons y rest2 =>
          rw [synthGo] at hc
          split at hc
          · rename_i hlen
            have hBpos : 0 < B := by
              simp only [List.length_append, List.length_singleton] at hlen
              omega
            rcases List.mem_cons.mp hc with rfl | hc'
            · rw [hlen]
              omega
            · exact ih [] (by simpa using hBpos) c hc'
          · rename_i hlen
            have : (batch ++ [x]).length < B := by
              simp only [List.length_append, List.length_singleton] at hlen ⊢
              omega
            exact ih _ this c hc

/-- Every batch except possibly the last has exactly `B` drivers. -/
theorem synthGo_dropLast_length {α} (B : ℕ) :
    ∀ (l : List α) (batch : List α), batch.length < B →
      ∀ c ∈ (synthGo B batch l).dropLast, c.length = B := by
  intro l
  induction l with
  | nil => intro batch _ c hc; simp [synthGo] at hc
  | cons x rest ih =>
      intro batch hb c hc
      cases rest with
      | nil => simp [synthGo] at hc
      | cons y rest2 =>
          rw [synthGo] at hc
          split at hc
          · rename_i hlen
            have hBpos : 0 < B := by
              simp only [List.length_append, List.length_singleton] at hlen
              omega
            rw [List.dropLast_cons_of_ne_nil (synthGo_ne_nil B _ [] (by simp))] at hc
            rcases List.mem_cons.mp hc with rfl | hc'
            · exact hlen
            · exact ih [] (by simpa using hBpos) c hc'
          · rename_i hlen
            have : (batch ++ [x]).length < B := by
              simp only [List.length_append, List.length_singleton] at hlen ⊢
              omega
            exact ih _ this c hc

/-- C3: for every ordered driver list and batch size `B ≥ 1`,
`CNTGProgram::synthesis` partitions the drivers, in order, into contiguous
batches: their concatenation is the original list (so every driver belongs to
exactly one batch, in order), every batch has between 1 and `B` drivers, and
every batch except possibly the last has exactly `B`. -/
theorem c3_synthesis_partitions {α} (drivers : List α) (B : ℕ) (hB : 1 ≤ B) :
    (synthesisBatches B drivers).flatten = drivers ∧
    (∀ c ∈ synthesisBatches B drivers, 1 ≤ c.length ∧ c.length ≤ B) ∧
    (∀ c ∈ (synthesisBatches B drivers).dropLast, c.length = B) := by
  unfold synthesisBatches
  refine ⟨?_, ?_, ?_⟩
  · cases drivers with
    | nil => rfl
    | cons x rest => simpa using synthGo_join B (x :: rest) [] (by simp)
  · exact synthGo_length_le B drivers [] (by simpa using hB)
  · exact synthGo_dropLast_length B drivers [] (by simpa using hB)

/-- On consecutive ordinals the batching loop produces exactly the contiguous
chunks `chunksFrom`: the pending accumulator is the ordinal run `[s, s+i)` and
the remaining input the run `[s+i, s+i+m)`. -/
theorem synthGo_range' (B : ℕ) :
    ∀ m, 0 < m → ∀ s i, i < B →
      synthGo B (List.range' s i) (List.range' (s + i) m) = chunksFrom B s (i + m) := by
  intro m
  induction m using Nat.strong_induction_on with
  | _ m IH =>
    intro hm s i hi
    match m, hm with
    | 1, _ =>
        show synthGo B (List.range' s i) [s + i] = chunksFrom B s (i + 1)
        rw [synthGo, chunksFrom, if_neg (by omega), if_pos (Or.inr (by omega)),
          ← List.range'_1_concat]
    | (k + 2), _ =>
        rw [List.range'_succ, List.range'_succ, synthGo]
        have hcat : List.range' s i ++ [s + i] = List.range' s (i + 1) :=
          (List.range'_1_concat s i).symm
        simp only [hcat, List.length_range']
        by_cases hiB : i + 1 = B
        · rw [if_pos hiB]
          have hs1 : s + i + 1 = (s + B) + 0 := by omega
          have htail : (s + i + 1) :: List.range' (s + i + 1 + 1) k =
              List.range' ((s + B) + 0) (k + 1) := by
            rw [List.range'_succ, hs1]
          have hnil : (List.range' (s + B) 0 : List ℕ) = [] := rfl
          rw [htail, ← hnil, IH (k + 1) (by omega) (by omega) (s + B) 0 (by omega),
            Nat.zero_add]
          conv_rhs => rw [chunksFrom]
          rw [if_neg (by omega), if_neg (by omega),
            (by omega : i + (k + 2) - B = k + 1), hiB]
        · rw [if_neg hiB]
          have htail : (s + i + 1) :: List.range' (s + i + 1 + 1) k =
              List.range' (s + (i + 1)) (k + 1) := by
            rw [List.range'_succ, (by omega : s + i + 1 = s + (i + 1))]
          rw [htail, IH (k + 1) (by omega) (by omega) s (i + 1) (by omega)]
          congr 1
          omega

/-- Chunk `j` of `chunksFrom B s m` is the contiguous ordinal run starting at
`s + j·B`. -/
theorem chunksFrom_get (B : ℕ) :
    ∀ m s j c, (chunksFrom B s m)[j]? = some c →
      c = List.range' (s + j * B) c.length := by
  intro m
  induction m using Nat.strong_induction_on with
  | _ m IH =>
    intro s j c hc
    rw [chunksFrom] at hc
    split_ifs at hc with h1 h2
    · simp at hc
    · cases j with
      | zero =>
          simp only [List.getElem?_cons_zero, Option.some_inj] at hc
          subst hc
          simp [List.length_range']
      | succ j' => simp at hc
    · cases j with
      | zero =>
          simp only [List.getElem?_cons_zero, Option.some_inj] at hc
          subst hc
          simp [List.length_range']
      | succ j' =>
          rw [List.getElem?_cons_succ] at hc
          push_neg at h2
          have hr := IH (m - B) (by omega) (s + B) j' c hc
          have harith : s + B + j' * B = s + (j' + 1) * B := by ring
          rw [← harith]
          exact hr

/-- C3 (witness): 7 drivers with batch size 3 — the partition property holds
and the produced batch sizes are `[3, 3, 1]`. -/
theorem c3_witness :
    (1 ≤ 3 ∧
      (synthesisBatches 3 (List.range 7)).flatten = List.range 7 ∧
      (∀ c ∈ synthesisBatches 3 (List.range 7), 1 ≤ c.length ∧ c.length ≤ 3) ∧
      (∀ c ∈ (synthesisBatches 3 (List.range 7)).dropLast, c.length = 3)) ∧
    (synthesisBatches 3 (List.range 7)).map List.length = [3, 3, 1] := by
  refine ⟨⟨by norm_num, ?_⟩, by decide⟩
  have h := c3_synthesis_partitions (List.range 7) 3 (by norm_num)
  exact ⟨h.1, h.2.1, h.2.2⟩

/-- C4 (counterexample): with 7 programs and batch size 3, the second fused
core (`Core_001`) declares and invokes the entry-point suffixes `3, 4, 5` —
its members' global ordinals (`batch_id` in cntg.rs:88-93, passed to
`synthesis_batch`) — not the dense integers `0..k-1 = 0, 1, 2` the claim
states. -/
theorem c4_counterexample :
    (synthesisBatches 3 (List.range 7))[1]? = some [3, 4, 5] ∧
      [3, 4, 5] ≠ List.range 3 := by
  exact ⟨by decide, by decide⟩

/-- C4 (amended): for batch size `B ≥ 1` and `n` programs, the suffixes
declared and invoked in fused core `j` (the `batch_id` list handed to
`synthesis_batch`, which emits exactly one forward declaration and one call
per entry of that list) are the contiguous run of global ordinals
`j·B, j·B+1, …` of the core's members — dense, and each occurring for
exactly one member (pairwise distinct within the core). -/
theorem c4_amended (n B j : ℕ) (c : List ℕ) (hB : 1 ≤ B)
    (hc : (synthesisBatches B (List.range n))[j]? = some c) :
    c = List.range' (j * B) c.length ∧ c.Nodup := by
  cases n with
  | zero =>
      simp [synthesisBatches, synthGo] at hc
  | succ n' =>
      have hrw : synthesisBatches B (List.range (n' + 1)) = chunksFrom B 0 (n' + 1) := by
        unfold synthesisBatches
        have h := synthGo_range' B (n' + 1) (by omega) 0 0 (by omega)
        simpa [List.range_eq_range'] using h
      rw [hrw] at hc
      have hcc := chunksFrom_get B (n' + 1) 0 j c hc
      have hzero : (0 : ℕ) + j * B = j * B := Nat.zero_add _
      rw [hzero] at hcc
      refine ⟨hcc, ?_⟩
      rw [hcc]
      exact List.nodup_range' _ _

/-- C4 (witness): the amended theorem at the `7` programs / batch size `3`
instance: core 1's suffixes are the contiguous ordinals `3, 4, 5`, pairwise
distinct. -/
theorem c4_witness :
    (1 ≤ 3) ∧ ((synthesisBatches 3 (List.range 7))[1]? = some [3, 4, 5]) ∧
      ([3, 4, 5] = List.range' (1 * 3) ([3, 4, 5] : List ℕ).length ∧
        ([3, 4, 5] : List ℕ).Nodup) :=
  ⟨by norm_num, by decide, c4_amended 7 3 1 [3, 4, 5] (by norm_num) (by decide)⟩

/-- The `core.cc` text is, definitionally, the header followed by one forward
declaration per `batch_id` entry and a `main` with one progress line and one
call per entry. -/
theorem synthesis_batch_structure (lib header : String) (ids : List ℕ) :
    synthesis_batch lib header ids =
      header ++ "\n\n" ++ String.join (ids.map (declLine lib)) ++ "\n\n" ++
      "int main(int argc, char* argv[])\n\x7b\n" ++
      String.join ((ids.enum.map fun p => callLines lib p.1 p.2)) ++
      "\treturn 0;\n\x7d\n" := rfl

/-! ### Lemmas on the left-to-right scan of `str::replace` -/

/-- The splitter always produces at least one part. -/
theorem splitOnStr_ne_nil (p : List Char) (s : List Char) : splitOnStr p s ≠ [] := by
  induction s using splitOnStr.induct p with
  | case1 => simp [splitOnStr]
  | case2 c s h ih =>
      rw [splitOnStr, dif_pos h]
      simp
  | case3 c s h hnil ih => exact absurd hnil ih
  | case4 c s h t ts hsplit ih =>
      rw [splitOnStr, dif_neg h, hsplit]
      simp

theorem joinWith_nil_list (sep : List Char) : joinWith sep [] = [] := rfl

theorem joinWith_single (sep t : List Char) : joinWith sep [t] = t := rfl

theorem joinWith_cons_cons (sep t u : List Char) (ts : List (List Char)) :
    joinWith sep (t :: u :: ts) = t ++ sep ++ joinWith sep (u :: ts) := rfl

/-- Joining the parts with the pattern itself reconstructs the scanned text:
the parts are exactly the unchanged text between the matched occurrences. -/
theorem joinWith_splitOnStr (p : List Char) (s : List Char) :
    joinWith p (splitOnStr p s) = s := by
  induction s using splitOnStr.induct p with
  | case1 => rw [splitOnStr, joinWith_single]
  | case2 c s h ih =>
      rw [splitOnStr, dif_pos h]
      rcases hd : splitOnStr p (List.drop p.length (c :: s)) with _ | ⟨t, ts⟩
      · exact absurd hd (splitOnStr_ne_nil p _)
      · rw [hd] at ih
        obtain ⟨u, hu⟩ : ∃ u, p ++ u = c :: s := by
          obtain ⟨u, hu⟩ := List.isPrefixOf_iff_prefix.mp h.2
          exact ⟨u, hu⟩
        have hdrop : List.drop p.length (c :: s) = u := by
          rw [← hu, List.drop_left]
        rw [joinWith_cons_cons, List.nil_append, ih, hdrop, hu]
  | case3 c s h hnil ih => exact absurd hnil (splitOnStr_ne_nil p s)
  | case4 c s h t ts hsplit ih =>
      rw [splitOnStr, dif_neg h, hsplit]
      rw [hsplit] at ih
      cases ts with
      | nil =>
          rw [joinWith_single] at ih ⊢
          rw [ih]
      | cons u ts' =>
          rw [joinWith_cons_cons] at ih ⊢
          rw [← ih]
          simp

/-- `str::replace` is: join the very same parts with the replacement. -/
theorem replaceAll_eq_joinWith (p r : List Char) (s : List Char) :
    replaceAll p r s = joinWith r (splitOnStr p s) := by
  induction s using splitOnStr.induct p with
  | case1 => rw [replaceAll, splitOnStr, joinWith_single]
  | case2 c s h ih =>
      rw [splitOnStr, dif_pos h, replaceAll, dif_pos h]
      rcases hd : splitOnStr p (List.drop p.length (c :: s)) with _ | ⟨t, ts⟩
      · exact absurd hd (splitOnStr_ne_nil p _)
      · rw [hd] at ih
        rw [joinWith_cons_cons, List.nil_append, ← ih]
  | case3 c s h hnil ih => exact absurd hnil (splitOnStr_ne_nil p s)
  | case4 c s h t ts hsplit ih =>
      rw [splitOnStr, dif_neg h, hsplit, replaceAll, dif_neg h]
      rw [hsplit] at ih
      cases ts with
      | nil =>
          rw [joinWith_single] at ih ⊢
          rw [ih]
      | cons u ts' =>
          rw [joinWith_cons_cons] at ih ⊢
          rw [ih]
          simp

/-- Each part of the scan contains no occurrence of the (non-empty) pattern:
scanning a part again finds nothing to split. -/
theorem splitOnStr_part (p : List Char) (hp : p ≠ []) (s : List Char) :
    ∀ t ∈ splitOnStr p s, splitOnStr p t = [t] := by
  induction s using splitOnStr.induct p with
  | case1 =>
      intro t ht
      rw [splitOnStr] at ht
      rw [List.mem_singleton.mp ht, splitOnStr]
  | case2 c s h ih =>
      intro t ht
      rw [splitOnStr, dif_pos h] at ht
      rcases List.mem_cons.mp ht with rfl | ht'
      · rw [splitOnStr]
      · exact ih t ht'
  | case3 c s h hnil ih => exact absurd hnil (splitOnStr_ne_nil p s)
  | case4 c s h t0 ts hsplit ih =>
      intro t ht
      rw [splitOnStr, dif_neg h, hsplit] at ht
      have ht0s : t0 <+: s := by
        have hj := joinWith_splitOnStr p s
        rw [hsplit] at hj
        cases ts with
        | nil =>
            rw [joinWith_single] at hj
            exact hj ▸ List.prefix_refl t0
        | cons u ts' =>
            rw [joinWith_cons_cons] at hj
            exact ⟨p ++ joinWith p (u :: ts'), by rw [← hj]; simp⟩
      rcases List.mem_cons.mp ht with rfl | ht'
      · have hnotpre : ¬(p ≠ [] ∧ p.isPrefixOf (c :: t0) = true) := by
          rintro ⟨-, hpre⟩
          apply h
          refine ⟨hp, ?_⟩
          have h1 : p <+: c :: t0 := List.isPrefixOf_iff_prefix.mp hpre
          have h2 : (c :: t0) <+: (c :: s) := by
            obtain ⟨u, hu⟩ := ht0s
            exact ⟨u, by rw [List.cons_append, hu]⟩
          exact List.isPrefixOf_iff_prefix.mpr (h1.trans h2)
        rw [splitOnStr, dif_neg hnotpre]
        have ht0 : splitOnStr p t0 = [t0] :=
          ih t0 (by rw [hsplit]; exact List.mem_cons_self _ _)
        rw [ht0]
      · exact ih t (by rw [hsplit]; exact List.mem_cons_of_mem _ ht')

/-- The canonical entry-function name is never empty. -/
theorem canonicalName_ne_nil (lib : String) : canonicalName lib ≠ [] := by
  intro hcontra
  have htail : ("_api_sequence" : String).toList ≠ [] := by decide
  apply htail
  simp only [canonicalName, String.toList, String.data_append] at hcontra
  exact (List.append_eq_nil.mp hcontra).2

/-- C7: `change_driver_id` decomposes the driver text into the segments
between the occurrences of the canonical entry name (segments that contain no
further occurrence) and rejoins exactly those unchanged segments with the
ordinal-suffixed name in place of every occurrence; rejoining the same
segments with the canonical name — i.e. stripping the `_{i}` suffix at each
renamed occurrence — recovers the original file text byte-for-byte. -/
theorem c7_change_driver_id (lib : String) (driver_id : ℕ) (buf : List Char) :
    change_driver_id lib driver_id buf =
      joinWith (suffixedName lib driver_id) (splitOnStr (canonicalName lib) buf) ∧
    joinWith (canonicalName lib) (splitOnStr (canonicalName lib) buf) = buf ∧
    (∀ t ∈ splitOnStr (canonicalName lib) buf,
      splitOnStr (canonicalName lib) t = [t]) :=
  ⟨replaceAll_eq_joinWith (canonicalName lib) (suffixedName lib driver_id) buf,
    joinWith_splitOnStr (canonicalName lib) buf,
    splitOnStr_part (canonicalName lib) (canonicalName_ne_nil lib) buf⟩

end CGNTG
